import Mathlib

/-!
Shallow embedding of the `smallPrimes` repository (files
`smallPrime/primes.py` and `smallPrime/factor.py`) together with proofs
about the embedded functions.

`factor.py` loads a prime table `orderedPrimes` from disk (produced by
`genPrimes` in `primes.py`); here the table is an explicit parameter of
each function.  Python machine integers are arbitrary precision, so `ℕ`
and `ℤ` model them exactly.
-/

namespace SmallPrimes

/-! ## Embedding of `genPrimes` from `primes.py`

`genPrimes(N)` sieves over the reduced residue space of integers
congruent to 1 or 5 mod 6: array index `j ≥ 1` stands for the integer
`(3*j+1)|1`.  The boolean array is modeled as a function `ℕ → Bool`
(reads and writes only ever touch indices below the array length, which
`markSlice` enforces with its `j < L` guard, matching the numpy slice
`sieve[start::step] = False`). -/

/-- The integer value represented by sieve index `j`: `(3*j + 1) | 1`.
Since `3*j + 1` is even exactly when `j` is odd, or-ing the low bit in
adds `j % 2`. -/
def vIdx (j : ℕ) : ℕ := 3 * j + 1 + j % 2

/-- Length of the sieve array `np.ones(N//3 + (N%6==2), dtype=bool)`. -/
def sieveSize (N : ℕ) : ℕ := N / 3 + (if N % 6 = 2 then 1 else 0)

/-- Largest `k ≤ m` with `k * k ≤ N` (and `0` when there is none).
Structural helper for `isqrt`, so that the sieve is kernel-evaluable. -/
def isqrtGo (N : ℕ) : ℕ → ℕ
  | 0 => 0
  | m + 1 => if (m + 1) * (m + 1) ≤ N then m + 1 else isqrtGo N m

/-- Model of `int(np.sqrt(N))`: the integer square root.  Here `np.sqrt` is a
correctly rounded IEEE double square root, which truncates to the exact
integer square root for every integer whose square root fits well inside
the 53-bit mantissa (in particular throughout the documented operating
range `N ≤ 10^8`); `isqrt_eq_sqrt` below identifies this definition with
Mathlib's `Nat.sqrt`. -/
def isqrt (N : ℕ) : ℕ := isqrtGo N N

/-- Model of `int(np.sqrt(N)) // 3`, the last index examined by the outer loop. -/
def topCheck (N : ℕ) : ℕ := isqrt N / 3

theorem isqrtGo_eq_sqrt (N : ℕ) : ∀ m, Nat.sqrt N ≤ m → isqrtGo N m = Nat.sqrt N := by
  intro m
  induction m with
  | zero =>
    intro h
    simpa [isqrtGo] using (Nat.le_antisymm h (Nat.zero_le _)).symm
  | succ m ih =>
    intro h
    by_cases hle : (m + 1) * (m + 1) ≤ N
    · have h1 : m + 1 = Nat.sqrt N := Nat.le_antisymm (Nat.le_sqrt.mpr hle) h
      rw [isqrtGo, if_pos hle, h1]
    · have h2 : Nat.sqrt N ≤ m := by
        rcases Nat.lt_or_ge (Nat.sqrt N) (m + 1) with h3 | h3
        · omega
        · exact absurd (le_trans (Nat.mul_le_mul h3 h3) (Nat.sqrt_le N)) hle
      rw [isqrtGo, if_neg hle]
      exact ih h2

theorem isqrt_eq_sqrt (N : ℕ) : isqrt N = Nat.sqrt N :=
  isqrtGo_eq_sqrt N N (Nat.sqrt_le_self N)

/-- Model of the slice assignment `sieve[start::step] = False` on an array of length `L`. -/
def markSlice (L start step : ℕ) (s : ℕ → Bool) : ℕ → Bool :=
  fun j => if start ≤ j ∧ j < L ∧ (j - start) % step = 0 then false else s j

/-- One iteration of the `for i in np.arange(1, topCheck+1)` loop:
skip if `sieve[i]` is already false, else compute `k = (3*i+1)|1` and
clear the two arithmetic progressions starting at `k**2 // 3` and at
`k*(k - 2*(i&1) + 4) // 3`, both with stride `2*k`. -/
def sievePass (L : ℕ) (s : ℕ → Bool) (i : ℕ) : ℕ → Bool :=
  if s i then
    let k := vIdx i
    markSlice L (k * (k - 2 * (i % 2) + 4) / 3) (2 * k)
      (markSlice L (k ^ 2 / 3) (2 * k) s)
  else s

/-- The outer sieve loop over a list of indices. -/
def sieveLoop (L : ℕ) : List ℕ → (ℕ → Bool) → (ℕ → Bool)
  | [], s => s
  | i :: idxs, s => sieveLoop L idxs (sievePass L s i)

/-- Model of `genPrimes(N)` from `primes.py`: run the sieve, then emit
`np.r_[2, 3, ((3*np.nonzero(sieve)[0][1:]+1)|1)]` — the values of all
surviving indices except the first surviving index (which is always
index 0, representing 1). -/
def genPrimes (N : ℕ) : List ℕ :=
  let L := sieveSize N
  let s := sieveLoop L (List.range' 1 (topCheck N)) (fun _ => true)
  2 :: 3 :: (((List.range L).filter (fun j => s j)).tail.map vIdx)

example : genPrimes 50 = [2, 3, 5, 7, 11, 13, 17, 19, 23, 29, 31, 37, 41, 43, 47] := by decide
example : genPrimes 6 = [2, 3, 5] := by decide
example : genPrimes 36 = [2, 3, 5, 7, 11, 13, 17, 19, 23, 29, 31] := by decide
example : genPrimes 3 = [2, 3] := by decide
example : genPrimes 1 = [2, 3] := by decide

/-! ## Embedding of `factor.py` -/

/-- The `while not r: N = q; primeDecomp[pr] += 1; q, r = divmod(N, pr)`
loop of `primeDecomposition`, written with explicit fuel so that the
definition is structurally recursive (and hence kernel-evaluable).
Returns the reduced value of `n` and the number of divisions performed.
For `2 ≤ pr` and `0 < n` the loop performs at most `n` steps, so fuel `n`
(as supplied by `divOut`) is never exhausted; the guard `2 ≤ pr ∧ 0 < n`
is a totality device: the Python loop runs forever when `pr = 1` divides
`n` and raises on `pr = 0`, and all call sites here have `2 ≤ pr`. -/
def divOutGo : ℕ → ℕ → ℕ → ℕ × ℕ
  | 0, _, n => (n, 0)
  | f + 1, pr, n =>
    if 2 ≤ pr ∧ n % pr = 0 ∧ 0 < n then
      let r := divOutGo f pr (n / pr)
      (r.1, r.2 + 1)
    else (n, 0)

/-- Divide `pr` out of `n` as often as it divides: the inner `while` loop
of `primeDecomposition`. -/
def divOut (pr n : ℕ) : ℕ × ℕ := divOutGo n pr n

/-- Record the divisions performed by the inner while loop: the
`Counter` gains key `pr` with multiplicity `(divOut pr n).2` exactly
when at least one division happened. -/
def pdStep (pr n : ℕ) (acc : List (ℕ × ℕ)) : List (ℕ × ℕ) :=
  if (divOut pr n).2 = 0 then acc else acc ++ [(pr, (divOut pr n).2)]

/-- The `for pr in orderedPrimes` loop of `primeDecomposition`.
The accumulator is the `Counter` as an association list in insertion
order: `primeDecomp[N] = 1` on the `pr**2 > N` shortcut appends `(n, 1)`,
and the inner while loop appends `(pr, e)` when it performed `e ≥ 1`
divisions.  `break` on `pr**2 > N` and on `N == 1` is modeled by
returning without recursing. -/
def pdLoop : List ℕ → ℕ → List (ℕ × ℕ) → List (ℕ × ℕ)
  | [], _, acc => acc
  | pr :: rest, n, acc =>
    if pr ^ 2 > n then acc ++ [(n, 1)]
    else if (divOut pr n).1 = 1 then pdStep pr n acc
    else pdLoop rest (divOut pr n).1 (pdStep pr n acc)

/-- Model of `primeDecomposition(N)` from `factor.py`: special-cases `N == 0` to
the empty `Counter`, otherwise trial-divides `abs(N)` by the table
primes in order. -/
def primeDecomposition (table : List ℕ) (t : ℤ) : List (ℕ × ℕ) :=
  if t = 0 then [] else pdLoop table t.natAbs []

/-- Model of `reduce(operator.mul, map(lambda p: p**pDecomp[p], pDecomp), 1)`:
the product of `factor ** multiplicity` over a decomposition.  Supplied
decompositions are arbitrary mappings, so keys are modeled as `ℤ`. -/
def prodDecomp (d : List (ℤ × ℕ)) : ℤ :=
  (d.map (fun pe => pe.1 ^ pe.2)).prod

/-- View the `ℕ`-keyed decomposition produced by `primeDecomposition` as
a `ℤ`-keyed mapping (Python has a single integer type). -/
def toZDecomp (d : List (ℕ × ℕ)) : List (ℤ × ℕ) :=
  d.map (fun pe => ((pe.1 : ℤ), pe.2))

/-- Model of `decompCertificate(N, primeDecomp=False)` from `factor.py`.  The
Python truthiness test `if primeDecomp` treats the default `False`, an
empty `dict` and an empty `Counter` alike, so the absent argument and an
explicitly supplied empty decomposition are both modeled by `d = []`:
in that case the function recomputes `primeDecomposition(N)` itself. -/
def decompCertificate (table : List ℕ) (t : ℤ) (d : List (ℤ × ℕ)) : Bool :=
  let pd := if d.isEmpty then toZDecomp (primeDecomposition table t) else d
  decide ((t.natAbs : ℤ) = prodDecomp pd)

/-- The inner `for _ in range(primeDecomp[pr])` loop of `divisors`:
each round multiplies every accumulated divisor by `pr` and adds the
products to the accumulated set. -/
def extendDiv (pr : ℕ) : ℕ → Finset ℕ → Finset ℕ
  | 0, s => s
  | e + 1, s => extendDiv pr e (s ∪ s.image (· * pr))

/-- Model of `divisors(N, proper=False)` from `factor.py`. -/
def divisors (table : List ℕ) (t : ℤ) (proper : Bool) : List ℕ :=
  if t = 0 then []
  else
    let n := t.natAbs
    let pd := primeDecomposition table (n : ℤ)
    let allDivisors := pd.foldl (fun s pe => extendDiv pe.1 pe.2 s) {1}
    let finalSet := if proper then allDivisors \ {1, n} else allDivisors
    finalSet.sort (· ≤ ·)

/-- Model of `expOverOne(N)` from `factor.py`: the entries of the prime
decomposition whose multiplicity exceeds 1, in order. -/
def expOverOne (table : List ℕ) (t : ℤ) : List (ℕ × ℕ) :=
  (primeDecomposition table t).filter (fun pe => decide (1 < pe.2))

example : primeDecomposition [2, 3, 5, 7] 360 = [(2, 3), (3, 2), (5, 1)] := by decide
example : primeDecomposition [2, 3, 5, 7] 1 = [(1, 1)] := by decide
example : primeDecomposition [2, 3, 5, 7] 11 = [(11, 1)] := by decide
example : primeDecomposition [2, 3, 5, 7] 106 = [(2, 1)] := by decide
example : decompCertificate [2, 3, 5, 7] 11 (toZDecomp (primeDecomposition [2, 3, 5, 7] 11)) = true := by decide
example : decompCertificate [2, 3, 5, 7] 106 (toZDecomp (primeDecomposition [2, 3, 5, 7] 106)) = false := by decide
example : decompCertificate [2, 3, 5, 7] 0 [] = false := by decide
example : expOverOne [2, 3, 5, 7] 360 = [(2, 3), (3, 2)] := by decide

/-! ## Arithmetic of the reduced residue indexing -/

theorem vIdx_mod6 (j : ℕ) : vIdx j % 6 = 1 ∨ vIdx j % 6 = 5 := by
  unfold vIdx; omega

theorem vIdx_div3 (w : ℕ) (h : w % 6 = 1 ∨ w % 6 = 5) : vIdx (w / 3) = w := by
  unfold vIdx; omega

theorem vIdx_strictMono : StrictMono vIdx :=
  strictMono_nat_of_lt_succ (fun n => by unfold vIdx; omega)

theorem vIdx_add_two_mul (j c : ℕ) : vIdx (j + 2 * c) = vIdx j + 6 * c := by
  unfold vIdx; omega

theorem vIdx_lt_iff (N j : ℕ) : j < sieveSize N ↔ vIdx j < N := by
  unfold vIdx sieveSize; split <;> omega

theorem vIdx_ge (j : ℕ) (h : 1 ≤ j) : 5 ≤ vIdx j := by
  unfold vIdx; omega

theorem vIdx_sq_mod6 (i : ℕ) : vIdx i ^ 2 % 6 = 1 := by
  have h1 := Nat.pow_mod (vIdx i) 2 6
  rcases vIdx_mod6 i with h | h <;> rw [h] at h1 <;> omega

theorem vIdx_b_mod6 (i : ℕ) (hi : 1 ≤ i) :
    vIdx i * (vIdx i - 2 * (i % 2) + 4) % 6 = 5 := by
  have h1 := Nat.mul_mod (vIdx i) (vIdx i - 2 * (i % 2) + 4) 6
  have h5 : 5 ≤ vIdx i := vIdx_ge i hi
  rcases Nat.even_or_odd i with he | ho
  · have h2 : i % 2 = 0 := Nat.even_iff.mp he
    have h3 : vIdx i % 6 = 1 := by unfold vIdx; omega
    have h4 : (vIdx i - 2 * (i % 2) + 4) % 6 = 5 := by omega
    rw [h3, h4] at h1; omega
  · have h2 : i % 2 = 1 := Nat.odd_iff.mp ho
    have h3 : vIdx i % 6 = 5 := by unfold vIdx; omega
    have h4 : (vIdx i - 2 * (i % 2) + 4) % 6 = 1 := by omega
    rw [h3, h4] at h1; omega

/-- Values reachable by a stride-`2*k` slice starting at index `w / 3`,
where `w` is a value in the tracked residue classes: exactly the values
`w + 6*k*t`. -/
theorem mem_slice_val (w k j : ℕ) (hw : w % 6 = 1 ∨ w % 6 = 5)
    (h1 : w / 3 ≤ j) (h2 : (j - w / 3) % (2 * k) = 0) :
    ∃ t, vIdx j = w + 6 * k * t := by
  obtain ⟨t, ht⟩ : ∃ t, j - w / 3 = 2 * (k * t) := by
    refine ⟨(j - w / 3) / (2 * k), ?_⟩
    rw [← Nat.mul_assoc]
    exact (Nat.mul_div_cancel' (Nat.dvd_of_mod_eq_zero h2)).symm
  refine ⟨t, ?_⟩
  have h3 : j = w / 3 + 2 * (k * t) := by omega
  rw [h3, vIdx_add_two_mul, vIdx_div3 w hw]; ring

/-- Converse: the index of the value `w + 6*k*t` lies on the slice. -/
theorem slice_of_val (w k t j : ℕ) (hw : w % 6 = 1 ∨ w % 6 = 5)
    (hj : vIdx j = w + 6 * k * t) :
    w / 3 ≤ j ∧ (j - w / 3) % (2 * k) = 0 := by
  have h1 : vIdx (w / 3 + 2 * (k * t)) = w + 6 * k * t := by
    rw [vIdx_add_two_mul, vIdx_div3 w hw]; ring
  have h2 : j = w / 3 + 2 * (k * t) := vIdx_strictMono.injective (by rw [h1, hj])
  refine ⟨by omega, ?_⟩
  have h3 : j - w / 3 = 2 * (k * t) := by omega
  rw [h3, ← Nat.mul_assoc]
  exact Nat.mul_mod_right (2 * k) t

/-! ## What the sieve marks -/

/-- A value marked composite by the sieve: a product of two factors
that are both at least 5. -/
def Composite6 (n : ℕ) : Prop := ∃ a b, 5 ≤ a ∧ 5 ≤ b ∧ n = a * b

theorem not_prime_of_composite6 {n : ℕ} (h : Composite6 n) : ¬ n.Prime := by
  rcases h with ⟨a, b, ha, hb, rfl⟩
  intro hp
  rcases hp.eq_one_or_self_of_dvd a ⟨b, rfl⟩ with h1 | h1
  · omega
  · have hb1 : b = 1 := by
      have h2 : a * b = a * 1 := by omega
      have := Nat.eq_of_mul_eq_mul_left (show 0 < a by omega) h2
      omega
    omega

theorem markSlice_false {L start step : ℕ} {s : ℕ → Bool} {j : ℕ}
    (h : markSlice L start step s j = false) :
    s j = false ∨ (start ≤ j ∧ j < L ∧ (j - start) % step = 0) := by
  unfold markSlice at h
  by_cases hc : start ≤ j ∧ j < L ∧ (j - start) % step = 0
  · exact Or.inr hc
  · rw [if_neg hc] at h; exact Or.inl h

theorem markSlice_mono {L start step : ℕ} {s : ℕ → Bool} {j : ℕ}
    (h : s j = false) : markSlice L start step s j = false := by
  unfold markSlice
  split
  · rfl
  · exact h

theorem markSlice_of_mem {L start step : ℕ} (s : ℕ → Bool) {j : ℕ}
    (hc : start ≤ j ∧ j < L ∧ (j - start) % step = 0) :
    markSlice L start step s j = false := by
  unfold markSlice
  rw [if_pos hc]

theorem sievePass_mono {L : ℕ} {s : ℕ → Bool} {i j : ℕ}
    (h : s j = false) : sievePass L s i j = false := by
  unfold sievePass
  split
  · exact markSlice_mono (markSlice_mono h)
  · exact h

theorem sieveLoop_mono {L : ℕ} {l : List ℕ} {s : ℕ → Bool} {j : ℕ}
    (h : s j = false) : sieveLoop L l s j = false := by
  induction l generalizing s with
  | nil => exact h
  | cons i l ih => exact ih (sievePass_mono h)

/-- Soundness of one pass: anything it newly marks has `Composite6`
value. -/
theorem sievePass_false {L : ℕ} {s : ℕ → Bool} {i j : ℕ} (hi : 1 ≤ i)
    (h : sievePass L s i j = false) :
    s j = false ∨ Composite6 (vIdx j) := by
  unfold sievePass at h
  by_cases hsi : s i = true
  · rw [if_pos hsi] at h
    have hk5 : 5 ≤ vIdx i := vIdx_ge i hi
    rcases markSlice_false h with h2 | hb
    · rcases markSlice_false h2 with h3 | ha
      · exact Or.inl h3
      · right
        obtain ⟨t, ht⟩ :=
          mem_slice_val (vIdx i ^ 2) (vIdx i) j (Or.inl (vIdx_sq_mod6 i)) ha.1 ha.2.2
        exact ⟨vIdx i, vIdx i + 6 * t, hk5, by omega, by rw [ht]; ring⟩
    · right
      obtain ⟨t, ht⟩ :=
        mem_slice_val (vIdx i * (vIdx i - 2 * (i % 2) + 4)) (vIdx i) j
          (Or.inr (vIdx_b_mod6 i hi)) hb.1 hb.2.2
      refine ⟨vIdx i, vIdx i - 2 * (i % 2) + 4 + 6 * t, hk5, by omega, by rw [ht]; ring⟩
  · rw [if_neg hsi] at h
    exact Or.inl h

/-- Soundness of the loop: every marked index has `Composite6` value
(starting from a state with the same property). -/
theorem sieveLoop_false {L : ℕ} {l : List ℕ} {s : ℕ → Bool} {j : ℕ}
    (hl : ∀ i ∈ l, 1 ≤ i)
    (hs : ∀ j', s j' = false → Composite6 (vIdx j'))
    (h : sieveLoop L l s j = false) : Composite6 (vIdx j) := by
  induction l generalizing s with
  | nil => exact hs j h
  | cons i l ih =>
    refine ih (fun i' hi' => hl i' (List.mem_cons_of_mem i hi')) (fun j' hj' => ?_) h
    rcases sievePass_false (hl i (List.mem_cons_self i l)) hj' with h1 | h1
    · exact hs j' h1
    · exact h1

/-- The two arithmetic progressions cleared by pass `i`. -/
def HitBy (i j : ℕ) : Prop :=
  (∃ t, vIdx j = vIdx i ^ 2 + 6 * vIdx i * t) ∨
  (∃ t, vIdx j = vIdx i * (vIdx i - 2 * (i % 2) + 4) + 6 * vIdx i * t)

theorem sievePass_hits {L : ℕ} {s : ℕ → Bool} {i j : ℕ} (hi : 1 ≤ i)
    (hsi : s i = true) (hj : j < L) (hhit : HitBy i j) :
    sievePass L s i j = false := by
  unfold sievePass
  rw [if_pos hsi]
  rcases hhit with ⟨t, ht⟩ | ⟨t, ht⟩
  · apply markSlice_mono
    have hc := slice_of_val (vIdx i ^ 2) (vIdx i) t j (Or.inl (vIdx_sq_mod6 i)) ht
    exact markSlice_of_mem s ⟨hc.1, hj, hc.2⟩
  · have hc := slice_of_val (vIdx i * (vIdx i - 2 * (i % 2) + 4)) (vIdx i) t j
      (Or.inr (vIdx_b_mod6 i hi)) ht
    exact markSlice_of_mem _ ⟨hc.1, hj, hc.2⟩

/-- Completeness of the loop: if a pass for a prime-valued index `i` is
scheduled and `j` lies on one of its progressions, `j` ends up marked. -/
theorem sieveLoop_hits {L : ℕ} {l : List ℕ} {s : ℕ → Bool} {i j : ℕ}
    (hl : ∀ i' ∈ l, 1 ≤ i')
    (hs : ∀ j', s j' = false → Composite6 (vIdx j'))
    (hmem : i ∈ l) (hp : (vIdx i).Prime) (hj : j < L) (hhit : HitBy i j) :
    sieveLoop L l s j = false := by
  induction l generalizing s with
  | nil => cases hmem
  | cons a l ih =>
    have ha1 : 1 ≤ a := hl a (List.mem_cons_self a l)
    rcases List.mem_cons.mp hmem with rfl | hmem2
    · have hsi : s i = true := by
        cases hsit : s i
        · exact absurd hp (not_prime_of_composite6 (hs i hsit))
        · rfl
      show sieveLoop L l (sievePass L s i) j = false
      exact sieveLoop_mono (sievePass_hits ha1 hsi hj hhit)
    · refine ih (fun i' hi' => hl i' (List.mem_cons_of_mem a hi')) (fun j' hj' => ?_) hmem2
      rcases sievePass_false ha1 hj' with h1 | h1
      · exact hs j' h1
      · exact h1

/-! ## Correctness of `genPrimes` -/

theorem prime_mod6 {p : ℕ} (hp : p.Prime) (h5 : 5 ≤ p) : p % 6 = 1 ∨ p % 6 = 5 := by
  have h2 : ¬ 2 ∣ p := by
    intro h
    rcases (Nat.Prime.eq_one_or_self_of_dvd hp 2 h) with h1 | h1 <;> omega
  have h3 : ¬ 3 ∣ p := by
    intro h
    rcases (Nat.Prime.eq_one_or_self_of_dvd hp 3 h) with h1 | h1 <;> omega
  omega

/-- The sieve state after the full outer loop of `genPrimes N`. -/
def finalSieve (N : ℕ) : ℕ → Bool :=
  sieveLoop (sieveSize N) (List.range' 1 (topCheck N)) (fun _ => true)

theorem genPrimes_def (N : ℕ) :
    genPrimes N =
      2 :: 3 :: (((List.range (sieveSize N)).filter (fun j => finalSieve N j)).tail.map vIdx) :=
  rfl

theorem finalSieve_false {N j : ℕ} (h : finalSieve N j = false) : Composite6 (vIdx j) := by
  refine sieveLoop_false (fun i' hi' => (List.mem_range'_1.mp hi').1) (fun j' hj' => ?_) h
  cases hj'

theorem finalSieve_zero (N : ℕ) : finalSieve N 0 = true := by
  cases h : finalSieve N 0
  · obtain ⟨a, b, ha, hb, hab⟩ := finalSieve_false h
    have : vIdx 0 = 1 := rfl
    nlinarith
  · rfl

theorem finalSieve_true_of_prime {N j : ℕ} (hp : (vIdx j).Prime) : finalSieve N j = true := by
  cases h : finalSieve N j
  · exact absurd hp (not_prime_of_composite6 (finalSieve_false h))
  · rfl

/-- Completeness: a composite value in range gets marked. -/
theorem finalSieve_false_of_not_prime {N j : ℕ} (hj1 : 1 ≤ j) (hjL : j < sieveSize N)
    (hnp : ¬ (vIdx j).Prime) : finalSieve N j = false := by
  set n := vIdx j with hn
  have hn5 : 5 ≤ n := vIdx_ge j hj1
  have hn6 := vIdx_mod6 j
  -- the least prime factor of n
  set p := n.minFac with hpdef
  have hp : p.Prime := Nat.minFac_prime (by omega)
  have hdvd : p ∣ n := Nat.minFac_dvd n
  have hp2 : 2 ≤ p := hp.two_le
  have hp5 : 5 ≤ p := by
    have hne2 : p ≠ 2 := by
      intro h
      have : (2 : ℕ) ∣ n := h ▸ hdvd
      omega
    have hne3 : p ≠ 3 := by
      intro h
      have : (3 : ℕ) ∣ n := h ▸ hdvd
      omega
    have hne4 : p ≠ 4 := by
      intro h
      rw [h] at hp
      exact absurd hp (by decide)
    omega
  have hp6 := prime_mod6 hp hp5
  have hpsq : p * p ≤ n := by
    have := Nat.minFac_sq_le_self (show 0 < n by omega) hnp
    nlinarith [this]
  -- the cofactor
  obtain ⟨m, hm⟩ := hdvd
  have hmpos : 0 < m := by
    rcases Nat.eq_zero_or_pos m with h | h
    · rw [h, Nat.mul_zero] at hm; omega
    · exact h
  have hm1 : m ≠ 1 := by
    intro h
    rw [h, Nat.mul_one] at hm
    exact hnp (hm ▸ hp)
  have hmge : p ≤ m := by
    have hq : m.minFac.Prime := Nat.minFac_prime hm1
    have hqm : m.minFac ∣ n := hm ▸ Dvd.dvd.mul_left (Nat.minFac_dvd m) p
    have h1 : p ≤ m.minFac := Nat.minFac_le_of_dvd hq.two_le hqm
    exact le_trans h1 (Nat.minFac_le hmpos)
  have hm6 : m % 6 = 1 ∨ m % 6 = 5 := by
    have hmul := Nat.mul_mod p m 6
    rw [← hm] at hmul
    rcases hp6 with h | h <;> rw [h] at hmul <;> omega
  -- the index whose pass marks j
  set i := p / 3 with hi
  have hvi : vIdx i = p := vIdx_div3 p hp6
  have hi1 : 1 ≤ i := by omega
  have himem : i ∈ List.range' 1 (topCheck N) := by
    have hnN : n < N := (vIdx_lt_iff N j).mp hjL
    have hple : p ≤ Nat.sqrt N := Nat.le_sqrt.mpr (by omega)
    have : i ≤ topCheck N := by
      unfold topCheck
      rw [isqrt_eq_sqrt]
      exact Nat.div_le_div_right hple
    refine List.mem_range'_1.mpr ⟨hi1, by omega⟩
  have hhit : HitBy i j := by
    rcases eq_or_ne (m % 6) (p % 6) with hcase | hcase
    · left
      obtain ⟨t, ht⟩ : ∃ t, m = p + 6 * t := ⟨(m - p) / 6, by omega⟩
      refine ⟨t, ?_⟩
      rw [hvi, ← hn, hm, ht]
      ring
    · right
      rcases hp6 with h1 | h1
      · -- p ≡ 1 [MOD 6], so i is even and the second progression starts at p*(p+4)
        have hm5 : m % 6 = 5 := by omega
        have hieven : i % 2 = 0 := by omega
        obtain ⟨t, ht⟩ : ∃ t, m = p + 4 + 6 * t := ⟨(m - (p + 4)) / 6, by omega⟩
        refine ⟨t, ?_⟩
        rw [hvi, hieven]
        have hsub : p - 2 * 0 + 4 = p + 4 := by omega
        rw [hsub, ← hn, hm, ht]
        ring
      · -- p ≡ 5 [MOD 6], so i is odd and the second progression starts at p*(p+2)
        have hm1' : m % 6 = 1 := by omega
        have hiodd : i % 2 = 1 := by omega
        obtain ⟨t, ht⟩ : ∃ t, m = p + 2 + 6 * t := ⟨(m - (p + 2)) / 6, by omega⟩
        refine ⟨t, ?_⟩
        rw [hvi, hiodd]
        have hsub : p - 2 * 1 + 4 = p + 2 := by omega
        rw [hsub, ← hn, hm, ht]
        ring
  exact sieveLoop_hits (fun i' hi' => (List.mem_range'_1.mp hi').1)
    (fun j' hj' => by cases hj') himem (hvi.symm ▸ hp) hjL hhit

/-- Characterization of the final sieve on in-range indices. -/
theorem finalSieve_iff {N j : ℕ} (hj1 : 1 ≤ j) (hjL : j < sieveSize N) :
    finalSieve N j = true ↔ (vIdx j).Prime := by
  constructor
  · intro h
    by_contra hnp
    rw [finalSieve_false_of_not_prime hj1 hjL hnp] at h
    cases h
  · exact finalSieve_true_of_prime

/-- Two strictly ascending lists with the same members are equal. -/
theorem sorted_eq_of_mem_iff :
    ∀ {l₁ l₂ : List ℕ}, l₁.Sorted (· < ·) → l₂.Sorted (· < ·) →
      (∀ x, x ∈ l₁ ↔ x ∈ l₂) → l₁ = l₂ := by
  intro l₁
  induction l₁ with
  | nil =>
    intro l₂ _ _ h
    cases l₂ with
    | nil => rfl
    | cons b t => exact absurd ((h b).mpr (List.mem_cons_self b t)) (List.not_mem_nil b)
  | cons a t ih =>
    intro l₂ h₁ h₂ h
    cases l₂ with
    | nil => exact absurd ((h a).mp (List.mem_cons_self a t)) (List.not_mem_nil a)
    | cons b t₂ =>
      have hab : a = b := by
        rcases List.mem_cons.mp ((h a).mp (List.mem_cons_self a t)) with h1 | h1
        · exact h1
        · rcases List.mem_cons.mp ((h b).mpr (List.mem_cons_self b t₂)) with h2 | h2
          · exact h2.symm
          · have hba := (List.pairwise_cons.mp h₂).1 a h1
            have hab2 := (List.pairwise_cons.mp h₁).1 b h2
            omega
      subst hab
      have ht : t = t₂ := by
        refine ih (List.Sorted.of_cons h₁) (List.Sorted.of_cons h₂) (fun x => ?_)
        constructor
        · intro hx
          have hax : a < x := (List.pairwise_cons.mp h₁).1 x hx
          rcases List.mem_cons.mp ((h x).mp (List.mem_cons_of_mem a hx)) with h1 | h1
          · omega
          · exact h1
        · intro hx
          have hax : a < x := (List.pairwise_cons.mp h₂).1 x hx
          rcases List.mem_cons.mp ((h x).mpr (List.mem_cons_of_mem a hx)) with h1 | h1
          · omega
          · exact h1
      rw [ht]

/-- Main correctness of the sieve: for `N > 5`, `genPrimes N` is exactly
the ascending list of primes below `N`. -/
theorem genPrimes_eq_primesBelow {N : ℕ} (hN : 5 < N) :
    genPrimes N = (List.range N).filter (fun m => decide m.Prime) := by
  have hL2 : 2 ≤ sieveSize N := by unfold sieveSize; omega
  -- rewrite the tail away
  have hrange : List.range (sieveSize N) = 0 :: List.range' 1 (sieveSize N - 1) := by
    rw [List.range_eq_range']
    obtain ⟨L', hL'⟩ : ∃ L', sieveSize N = L' + 1 := ⟨sieveSize N - 1, by omega⟩
    rw [hL', List.range'_succ 0 L' 1]
    norm_num
  have hbody : genPrimes N =
      2 :: 3 :: ((List.range' 1 (sieveSize N - 1)).filter (fun j => finalSieve N j)).map vIdx := by
    rw [genPrimes_def, hrange]
    rw [List.filter_cons_of_pos (by simpa using finalSieve_zero N)]
    rfl
  rw [hbody]
  refine sorted_eq_of_mem_iff ?_ ?_ ?_
  · -- sortedness of the emitted list
    have hpw : ((List.range' 1 (sieveSize N - 1)).filter (fun j => finalSieve N j)).Pairwise (· < ·) :=
      (List.pairwise_lt_range' 1 (sieveSize N - 1)).filter _
    have hmap : (((List.range' 1 (sieveSize N - 1)).filter (fun j => finalSieve N j)).map vIdx).Pairwise (· < ·) :=
      hpw.map vIdx (fun a b hab => vIdx_strictMono hab)
    refine List.pairwise_cons.mpr ⟨?_, List.pairwise_cons.mpr ⟨?_, hmap⟩⟩
    · intro x hx
      rcases List.mem_cons.mp hx with rfl | hx2
      · omega
      · obtain ⟨j, hj, rfl⟩ := List.mem_map.mp hx2
        have hj1 : 1 ≤ j := (List.mem_range'_1.mp (List.mem_of_mem_filter hj)).1
        have := vIdx_ge j hj1
        omega
    · intro x hx
      obtain ⟨j, hj, rfl⟩ := List.mem_map.mp hx
      have hj1 : 1 ≤ j := (List.mem_range'_1.mp (List.mem_of_mem_filter hj)).1
      have := vIdx_ge j hj1
      omega
  · exact (List.pairwise_lt_range N).filter _
  · intro x
    have hmemR : x ∈ (List.range N).filter (fun m => decide m.Prime) ↔ x < N ∧ x.Prime := by
      rw [List.mem_filter, List.mem_range]
      simp
    constructor
    · intro hx
      rw [hmemR]
      rcases List.mem_cons.mp hx with rfl | hx1
      · exact ⟨by omega, by decide⟩
      rcases List.mem_cons.mp hx1 with rfl | hx2
      · exact ⟨by omega, by decide⟩
      obtain ⟨j, hj, rfl⟩ := List.mem_map.mp hx2
      have hjr := List.mem_range'_1.mp (List.mem_of_mem_filter hj)
      have hj1 : 1 ≤ j := hjr.1
      have hjL : j < sieveSize N := by omega
      have hs : finalSieve N j = true := by
        have := List.of_mem_filter hj
        simpa using this
      exact ⟨(vIdx_lt_iff N j).mp hjL, (finalSieve_iff hj1 hjL).mp hs⟩
    · intro hx
      rw [hmemR] at hx
      obtain ⟨hxN, hxp⟩ := hx
      have hx2 := hxp.two_le
      by_cases h2 : x = 2
      · subst h2; exact List.mem_cons_self 2 _
      by_cases h3 : x = 3
      · subst h3
        exact List.mem_cons_of_mem 2 (List.mem_cons_self 3 _)
      have hx4 : x ≠ 4 := by
        intro h
        rw [h] at hxp
        exact absurd hxp (by decide)
      have hx5 : 5 ≤ x := by omega
      have hx6 := prime_mod6 hxp hx5
      set j := x / 3 with hjdef
      have hvj : vIdx j = x := vIdx_div3 x hx6
      have hj1 : 1 ≤ j := by omega
      have hjL : j < sieveSize N := (vIdx_lt_iff N j).mpr (by omega)
      have hs : finalSieve N j = true := (finalSieve_iff hj1 hjL).mpr (hvj.symm ▸ hxp)
      refine List.mem_cons_of_mem 2 (List.mem_cons_of_mem 3 (List.mem_map.mpr ⟨j, ?_, hvj⟩))
      refine List.mem_filter.mpr ⟨List.mem_range'_1.mpr ⟨hj1, by omega⟩, by simpa using hs⟩

/-! ## Basic facts about the trial-division loop -/

/-- Product of `factor ^ multiplicity` over an `ℕ`-keyed decomposition. -/
def prodD (d : List (ℕ × ℕ)) : ℕ := (d.map (fun pe => pe.1 ^ pe.2)).prod

theorem prodD_nil : prodD [] = 1 := rfl

theorem prodD_append (d₁ d₂ : List (ℕ × ℕ)) : prodD (d₁ ++ d₂) = prodD d₁ * prodD d₂ := by
  unfold prodD
  rw [List.map_append, List.prod_append]

theorem prodD_singleton (p e : ℕ) : prodD [(p, e)] = p ^ e := by
  unfold prodD
  simp

theorem prodDecomp_toZ (d : List (ℕ × ℕ)) : prodDecomp (toZDecomp d) = (prodD d : ℤ) := by
  induction d with
  | nil => rfl
  | cons pe d ih =>
    unfold prodDecomp toZDecomp prodD at *
    simp only [List.map_cons, List.prod_cons] at *
    rw [ih]
    push_cast
    ring

theorem divOutGo_spec : ∀ (f pr n : ℕ), 0 < n → n ≤ f → 2 ≤ pr →
    pr ^ (divOutGo f pr n).2 * (divOutGo f pr n).1 = n ∧
    ¬ pr ∣ (divOutGo f pr n).1 ∧ 0 < (divOutGo f pr n).1 := by
  intro f
  induction f with
  | zero => intro pr n h1 h2 _; omega
  | succ f ih =>
    intro pr n h1 h2 h3
    by_cases hc : 2 ≤ pr ∧ n % pr = 0 ∧ 0 < n
    · have hdvd : pr ∣ n := Nat.dvd_of_mod_eq_zero hc.2.1
      have hnp : 0 < n / pr := Nat.div_pos (Nat.le_of_dvd h1 hdvd) (by omega)
      have hlt : n / pr < n := Nat.div_lt_self h1 (by omega)
      have hrec := ih pr (n / pr) hnp (by omega) h3
      rw [divOutGo, if_pos hc]
      refine ⟨?_, hrec.2.1, hrec.2.2⟩
      simp only [pow_succ]
      calc pr ^ (divOutGo f pr (n / pr)).2 * pr * (divOutGo f pr (n / pr)).1
      _ = pr * (pr ^ (divOutGo f pr (n / pr)).2 * (divOutGo f pr (n / pr)).1) := by ring
      _ = pr * (n / pr) := by rw [hrec.1]
      _ = n := Nat.mul_div_cancel' hdvd
    · rw [divOutGo, if_neg hc]
      refine ⟨by simp, ?_, h1⟩
      intro hdvd
      have hz : n % pr = 0 := Nat.mod_eq_zero_of_dvd hdvd
      exact hc ⟨h3, hz, h1⟩

theorem divOut_spec (pr n : ℕ) (h2 : 2 ≤ pr) (hn : 0 < n) :
    pr ^ (divOut pr n).2 * (divOut pr n).1 = n ∧
    ¬ pr ∣ (divOut pr n).1 ∧ 0 < (divOut pr n).1 :=
  divOutGo_spec n pr n hn le_rfl h2

theorem prodD_pdStep (pr n : ℕ) (acc : List (ℕ × ℕ)) :
    prodD (pdStep pr n acc) = prodD acc * pr ^ (divOut pr n).2 := by
  unfold pdStep
  split
  · rename_i h
    rw [h, pow_zero, Nat.mul_one]
  · rw [prodD_append, prodD_singleton]

/-! ## Rough parts: the portion of a number built from large primes -/

/-- Product of the prime factors of `n` (with multiplicity) that
exceed `M`. -/
def roughGt (M n : ℕ) : ℕ := (n.primeFactorsList.filter (fun p => decide (M < p))).prod

/-- Product of the prime factors of `n` (with multiplicity) that are at
least `M`. -/
def roughGe (M n : ℕ) : ℕ := (n.primeFactorsList.filter (fun p => decide (M ≤ p))).prod

theorem filter_prod_dvd (P : ℕ → Bool) (l : List ℕ) : (l.filter P).prod ∣ l.prod := by
  induction l with
  | nil => simp
  | cons a l ih =>
    by_cases h : P a
    · rw [List.filter_cons_of_pos h, List.prod_cons, List.prod_cons]
      exact mul_dvd_mul_left a ih
    · rw [List.filter_cons_of_neg h, List.prod_cons]
      exact Dvd.dvd.mul_left ih a

theorem filterProd_mul (P : ℕ → Bool) {a b : ℕ} (ha : a ≠ 0) (hb : b ≠ 0) :
    ((a * b).primeFactorsList.filter P).prod =
      (a.primeFactorsList.filter P).prod * (b.primeFactorsList.filter P).prod := by
  have hperm := Nat.perm_primeFactorsList_mul ha hb
  rw [← List.prod_append, ← List.filter_append]
  exact List.Perm.prod_eq (hperm.filter P)

theorem filterProd_pow_one (P : ℕ → Bool) {pr : ℕ} (hpr : pr.Prime) (e : ℕ)
    (hP : P pr = false) : ((pr ^ e).primeFactorsList.filter P).prod = 1 := by
  rw [Nat.Prime.primeFactorsList_pow hpr]
  have h : (List.replicate e pr).filter P = [] :=
    List.filter_eq_nil_iff.mpr (fun a ha => by rw [List.eq_of_mem_replicate ha]; simp [hP])
  rw [h, List.prod_nil]

theorem filterProd_pow_self (P : ℕ → Bool) {pr : ℕ} (hpr : pr.Prime) (e : ℕ)
    (hP : P pr = true) : ((pr ^ e).primeFactorsList.filter P).prod = pr ^ e := by
  rw [Nat.Prime.primeFactorsList_pow hpr]
  have h : (List.replicate e pr).filter P = List.replicate e pr :=
    List.filter_eq_self.mpr (fun a ha => by rw [List.eq_of_mem_replicate ha]; simp [hP])
  rw [h, List.prod_replicate]

theorem roughGt_dvd (M n : ℕ) (hn : n ≠ 0) : roughGt M n ∣ n := by
  have := filter_prod_dvd (fun p => decide (M < p)) n.primeFactorsList
  rwa [Nat.prod_primeFactorsList hn] at this

theorem roughGe_dvd (M n : ℕ) (hn : n ≠ 0) : roughGe M n ∣ n := by
  have := filter_prod_dvd (fun p => decide (M ≤ p)) n.primeFactorsList
  rwa [Nat.prod_primeFactorsList hn] at this

theorem roughGt_pos (M n : ℕ) : 0 < roughGt M n := by
  refine List.prod_pos (fun a ha => ?_)
  exact (Nat.prime_of_mem_primeFactorsList (List.mem_of_mem_filter ha)).pos

theorem roughGe_pos (M n : ℕ) : 0 < roughGe M n := by
  refine List.prod_pos (fun a ha => ?_)
  exact (Nat.prime_of_mem_primeFactorsList (List.mem_of_mem_filter ha)).pos

theorem roughGt_eq_self (M n : ℕ) (hn : n ≠ 0)
    (h : ∀ q, q.Prime → q ∣ n → M < q) : roughGt M n = n := by
  unfold roughGt
  have hself : n.primeFactorsList.filter (fun p => decide (M < p)) = n.primeFactorsList :=
    List.filter_eq_self.mpr (fun a ha => by
      have := Nat.mem_primeFactorsList hn |>.mp ha
      simpa using h a this.1 this.2)
  rw [hself, Nat.prod_primeFactorsList hn]

theorem roughGe_eq_self (M n : ℕ) (hn : n ≠ 0)
    (h : ∀ q, q.Prime → q ∣ n → M ≤ q) : roughGe M n = n := by
  unfold roughGe
  have hself : n.primeFactorsList.filter (fun p => decide (M ≤ p)) = n.primeFactorsList :=
    List.filter_eq_self.mpr (fun a ha => by
      have := Nat.mem_primeFactorsList hn |>.mp ha
      simpa using h a this.1 this.2)
  rw [hself, Nat.prod_primeFactorsList hn]

theorem roughGt_eq_one (M n : ℕ) (h : ∀ q, q.Prime → q ∣ n → q ≤ M) : roughGt M n = 1 := by
  unfold roughGt
  have hnil : n.primeFactorsList.filter (fun p => decide (M < p)) = [] :=
    List.filter_eq_nil_iff.mpr (fun a ha => by
      have hp := Nat.prime_of_mem_primeFactorsList ha
      have hd := Nat.dvd_of_mem_primeFactorsList ha
      simpa using Nat.not_lt.mpr (h a hp hd))
  rw [hnil, List.prod_nil]

theorem one_lt_roughGt (M n q : ℕ) (hn : n ≠ 0) (hq : q.Prime) (hdvd : q ∣ n)
    (hM : M < q) : 1 < roughGt M n := by
  have hmem : q ∈ n.primeFactorsList.filter (fun p => decide (M < p)) := by
    rw [List.mem_filter]
    exact ⟨(Nat.mem_primeFactorsList hn).mpr ⟨hq, hdvd⟩, by simpa using hM⟩
  have hdp : q ∣ roughGt M n := List.dvd_prod hmem
  have := Nat.le_of_dvd (roughGt_pos M n) hdp
  have := hq.two_le
  omega

theorem roughGt_mul_pow {M pr e n2 : ℕ} (hpr : pr.Prime) (hple : pr ≤ M) (hn2 : n2 ≠ 0) :
    roughGt M (pr ^ e * n2) = roughGt M n2 := by
  unfold roughGt
  rw [filterProd_mul _ (pow_ne_zero e hpr.ne_zero) hn2,
    filterProd_pow_one _ hpr e (by simpa using hple), one_mul]

theorem roughGe_mul_pow_lt {M pr e n2 : ℕ} (hpr : pr.Prime) (hplt : pr < M) (hn2 : n2 ≠ 0) :
    roughGe M (pr ^ e * n2) = roughGe M n2 := by
  unfold roughGe
  rw [filterProd_mul _ (pow_ne_zero e hpr.ne_zero) hn2,
    filterProd_pow_one _ hpr e (by simpa using hplt), one_mul]

theorem roughGe_le_of_mul_pow {M pr e n2 : ℕ} (hpr : pr.Prime) (hn2 : n2 ≠ 0) :
    roughGe M n2 ≤ roughGe M (pr ^ e * n2) := by
  unfold roughGe
  rw [filterProd_mul _ (pow_ne_zero e hpr.ne_zero) hn2]
  have h1 : 0 < ((pr ^ e).primeFactorsList.filter (fun p => decide (M ≤ p))).prod :=
    List.prod_pos (fun a ha =>
      (Nat.prime_of_mem_primeFactorsList (List.mem_of_mem_filter ha)).pos)
  calc roughGe M n2 = 1 * roughGe M n2 := (one_mul _).symm
  _ ≤ _ := Nat.mul_le_mul_right _ h1

/-! ## Behaviour of the trial-division loop -/

/-- When the remaining cofactor still has a prime factor beyond every
table prime and the `pr² > n` shortcut can never fire (the rough part of
`n` at least `M` is at least `M²`), the loop exhausts the table and the
recorded product misses exactly the rough part. -/
theorem pdLoop_exhaust (M : ℕ) :
    ∀ (rest : List ℕ) (n : ℕ) (acc : List (ℕ × ℕ)),
      rest.Pairwise (· < ·) →
      (∀ p ∈ rest, p.Prime) →
      (∀ p ∈ rest, p ≤ M) →
      (rest = [] ∨ M ∈ rest) →
      0 < n →
      (∀ q, q.Prime → q ∣ n → q ∈ rest ∨ M < q) →
      1 < roughGt M n →
      (rest ≠ [] → M ^ 2 ≤ roughGe M n) →
      prodD (pdLoop rest n acc) = prodD acc * (n / roughGt M n) := by
  intro rest
  induction rest with
  | nil =>
    intro n acc _ _ _ _ hn hfac _ _
    have hself : roughGt M n = n := roughGt_eq_self M n (by omega) (fun q hq hd =>
      (hfac q hq hd).elim (fun h => absurd h (List.not_mem_nil q)) id)
    show prodD acc = prodD acc * (n / roughGt M n)
    rw [hself, Nat.div_self hn, Nat.mul_one]
  | cons pr rest2 ih =>
    intro n acc hsort hprime hle hMem hn hfac hl hge
    have hprp : pr.Prime := hprime pr (List.mem_cons_self pr rest2)
    have hpr2 : 2 ≤ pr := hprp.two_le
    have hprM : pr ≤ M := hle pr (List.mem_cons_self pr rest2)
    have hgeM : M ^ 2 ≤ roughGe M n := hge (by simp)
    have hgen : roughGe M n ≤ n := Nat.le_of_dvd hn (roughGe_dvd M n (by omega))
    have hnofire : ¬ (pr ^ 2 > n) := by
      push_neg
      calc pr ^ 2 ≤ M ^ 2 := Nat.pow_le_pow_left hprM 2
      _ ≤ n := le_trans hgeM hgen
    have hspec := divOut_spec pr n hpr2 hn
    set n2 := (divOut pr n).1 with hn2def
    set e := (divOut pr n).2 with hedef
    have heq : pr ^ e * n2 = n := hspec.1
    have hndvd : ¬ pr ∣ n2 := hspec.2.1
    have hn2pos : 0 < n2 := hspec.2.2
    have hlt : roughGt M n = roughGt M n2 := by
      rw [← heq]
      exact roughGt_mul_pow hprp hprM (by omega)
    have hn2ne1 : ¬ (n2 = 1) := by
      intro h
      rw [hlt, h] at hl
      simp [roughGt] at hl
    have hfac2 : ∀ q, q.Prime → q ∣ n2 → q ∈ rest2 ∨ M < q := by
      intro q hq hd
      have hdn : q ∣ n := dvd_trans hd ⟨pr ^ e, by rw [← heq]; ring⟩
      rcases hfac q hq hdn with hmem | hM
      · rcases List.mem_cons.mp hmem with rfl | h2
        · exact absurd hd hndvd
        · exact Or.inl h2
      · exact Or.inr hM
    have hMem2 : rest2 = [] ∨ M ∈ rest2 := by
      rcases hMem with h | h
      · cases h
      · rcases List.mem_cons.mp h with hMp | h2
        · left
          by_contra hne
          obtain ⟨x, hx⟩ := List.exists_mem_of_ne_nil rest2 hne
          have h1 := (List.pairwise_cons.mp hsort).1 x hx
          have h2 := hle x (List.mem_cons_of_mem pr hx)
          omega
        · exact Or.inr h2
    show prodD (if pr ^ 2 > n then acc ++ [(n, 1)]
      else if n2 = 1 then pdStep pr n acc
      else pdLoop rest2 n2 (pdStep pr n acc)) = prodD acc * (n / roughGt M n)
    rw [if_neg hnofire, if_neg hn2ne1]
    rcases eq_or_ne rest2 [] with hrest2 | hrest2
    · subst hrest2
      have hfacall : ∀ q, q.Prime → q ∣ n2 → M < q := fun q hq hd =>
        (hfac2 q hq hd).elim (fun h => absurd h (List.not_mem_nil q)) id
      have hself : roughGt M n2 = n2 := roughGt_eq_self M n2 (by omega) hfacall
      show prodD (pdStep pr n acc) = _
      rw [prodD_pdStep, hlt, hself]
      have hdiv : n / n2 = pr ^ e := by
        rw [← heq]
        exact Nat.mul_div_cancel _ hn2pos
      rw [hdiv, ← hedef]
    · have hprltM : pr < M := by
        rcases Nat.lt_or_ge pr M with h | h
        · exact h
        · obtain ⟨x, hx⟩ := List.exists_mem_of_ne_nil rest2 hrest2
          have h1 := (List.pairwise_cons.mp hsort).1 x hx
          have h2 := hle x (List.mem_cons_of_mem pr hx)
          omega
      have hge2 : roughGe M n = roughGe M n2 := by
        rw [← heq]
        exact roughGe_mul_pow_lt hprp hprltM (by omega)
      have hrec := ih n2 (pdStep pr n acc) (List.Pairwise.of_cons hsort)
        (fun p hp => hprime p (List.mem_cons_of_mem pr hp))
        (fun p hp => hle p (List.mem_cons_of_mem pr hp))
        hMem2 hn2pos hfac2 (hlt ▸ hl) (fun _ => hge2 ▸ hgeM)
      rw [hrec, prodD_pdStep, ← hedef, hlt]
      have hdvd2 : roughGt M n2 ∣ n2 := roughGt_dvd M n2 (by omega)
      rw [Nat.mul_assoc]
      congr 1
      rw [← Nat.mul_div_assoc _ hdvd2, heq]

/-- When the rough part of `n` is trivial, or the shortcut is guaranteed
to fire before the table is exhausted, the recorded product recovers `n`
in full. -/
theorem pdLoop_fire (M : ℕ) :
    ∀ (rest : List ℕ) (n : ℕ) (acc : List (ℕ × ℕ)),
      rest.Pairwise (· < ·) →
      (∀ p ∈ rest, p.Prime) →
      (∀ p ∈ rest, p ≤ M) →
      (rest = [] ∨ M ∈ rest) →
      0 < n →
      (∀ q, q.Prime → q ∣ n → q ∈ rest ∨ M < q) →
      (rest = [] → n = 1) →
      (roughGt M n = 1 ∨ roughGe M n < M ^ 2) →
      prodD (pdLoop rest n acc) = prodD acc * n := by
  intro rest
  induction rest with
  | nil =>
    intro n acc _ _ _ _ _ _ h0 _
    rw [h0 rfl]
    show prodD acc = prodD acc * 1
    rw [Nat.mul_one]
  | cons pr rest2 ih =>
    intro n acc hsort hprime hle hMem hn hfac h0 hH
    have hprp : pr.Prime := hprime pr (List.mem_cons_self pr rest2)
    have hpr2 : 2 ≤ pr := hprp.two_le
    have hprM : pr ≤ M := hle pr (List.mem_cons_self pr rest2)
    by_cases hfire : pr ^ 2 > n
    · show prodD (if pr ^ 2 > n then acc ++ [(n, 1)]
        else if (divOut pr n).1 = 1 then pdStep pr n acc
        else pdLoop rest2 (divOut pr n).1 (pdStep pr n acc)) = prodD acc * n
      rw [if_pos hfire, prodD_append, prodD_singleton, pow_one]
    · have hspec := divOut_spec pr n hpr2 hn
      set n2 := (divOut pr n).1 with hn2def
      set e := (divOut pr n).2 with hedef
      have heq : pr ^ e * n2 = n := hspec.1
      have hndvd : ¬ pr ∣ n2 := hspec.2.1
      have hn2pos : 0 < n2 := hspec.2.2
      have hlt : roughGt M n = roughGt M n2 := by
        rw [← heq]
        exact roughGt_mul_pow hprp hprM (by omega)
      have hfac2 : ∀ q, q.Prime → q ∣ n2 → q ∈ rest2 ∨ M < q := by
        intro q hq hd
        have hdn : q ∣ n := dvd_trans hd ⟨pr ^ e, by rw [← heq]; ring⟩
        rcases hfac q hq hdn with hmem | hM
        · rcases List.mem_cons.mp hmem with rfl | h2
          · exact absurd hd hndvd
          · exact Or.inl h2
        · exact Or.inr hM
      show prodD (if pr ^ 2 > n then acc ++ [(n, 1)]
        else if n2 = 1 then pdStep pr n acc
        else pdLoop rest2 n2 (pdStep pr n acc)) = prodD acc * n
      rw [if_neg hfire]
      by_cases hone : n2 = 1
      · rw [if_pos hone, prodD_pdStep, ← hedef]
        have : pr ^ e = n := by rw [← heq, hone, Nat.mul_one]
        rw [this]
      · rw [if_neg hone]
        have hMem2 : rest2 = [] ∨ M ∈ rest2 := by
          rcases hMem with h | h
          · cases h
          · rcases List.mem_cons.mp h with hMp | h2
            · left
              by_contra hne
              obtain ⟨x, hx⟩ := List.exists_mem_of_ne_nil rest2 hne
              have h1 := (List.pairwise_cons.mp hsort).1 x hx
              have h2 := hle x (List.mem_cons_of_mem pr hx)
              omega
            · exact Or.inr h2
        have h02 : rest2 = [] → n2 = 1 := by
          intro hrest2
          subst hrest2
          -- every prime factor of n2 now exceeds M
          have hfacall : ∀ q, q.Prime → q ∣ n2 → M < q := fun q hq hd =>
            (hfac2 q hq hd).elim (fun h => absurd h (List.not_mem_nil q)) id
          rcases hH with hH1 | hH2
          · have hself : roughGt M n2 = n2 := roughGt_eq_self M n2 (by omega) hfacall
            rw [hlt, hself] at hH1
            exact hH1
          · -- pr = M and every factor of n is at least M, so roughGe M n = n;
            -- but the shortcut did not fire, so M² ≤ n — contradiction.
            have hprM' : pr = M := by
              rcases hMem with h | h
              · cases h
              · rcases List.mem_cons.mp h with h1 | h1
                · omega
                · cases h1
            have hfacge : ∀ q, q.Prime → q ∣ n → M ≤ q := by
              intro q hq hd
              rcases hfac q hq hd with hmem | hM
              · rcases List.mem_cons.mp hmem with rfl | h2
                · omega
                · cases h2
              · omega
            have hself : roughGe M n = n := roughGe_eq_self M n (by omega) hfacge
            rw [hself] at hH2
            have hfire2 : ¬ (M ^ 2 > n) := by rw [← hprM']; exact hfire
            omega
        have hH2 : roughGt M n2 = 1 ∨ roughGe M n2 < M ^ 2 := by
          rcases hH with h | h
          · exact Or.inl (by rw [← hlt]; exact h)
          · right
            have hle2 : roughGe M n2 ≤ roughGe M n := by
              rw [← heq]
              exact roughGe_le_of_mul_pow hprp (by omega)
            omega
        have hrec := ih n2 (pdStep pr n acc) (List.Pairwise.of_cons hsort)
          (fun p hp => hprime p (List.mem_cons_of_mem pr hp))
          (fun p hp => hle p (List.mem_cons_of_mem pr hp))
          hMem2 hn2pos hfac2 h02 hH2
        rw [hrec, prodD_pdStep, ← hedef, Nat.mul_assoc, heq]

/-! ## Structure of the decomposition for fully-tabled targets -/

theorem prodD_cons (p e : ℕ) (d : List (ℕ × ℕ)) :
    prodD ((p, e) :: d) = p ^ e * prodD d := by
  unfold prodD
  rw [List.map_cons, List.prod_cons]

/-- For a target greater than 1 all of whose prime factors appear in the
(sorted, prime) table suffix, the loop appends a list of entries with
strictly increasing prime keys, positive multiplicities, and product
exactly `n`. -/
theorem pdLoop_decomp :
    ∀ (rest : List ℕ) (n : ℕ) (acc : List (ℕ × ℕ)),
      rest.Pairwise (· < ·) →
      (∀ p ∈ rest, p.Prime) →
      1 < n →
      (∀ q, q.Prime → q ∣ n → q ∈ rest) →
      ∃ E, pdLoop rest n acc = acc ++ E ∧
        (∀ pe ∈ E, pe.1.Prime ∧ 0 < pe.2 ∧ pe.1 ∣ n) ∧
        (E.map Prod.fst).Pairwise (· < ·) ∧
        prodD E = n := by
  intro rest
  induction rest with
  | nil =>
    intro n acc _ _ hn hfac
    obtain ⟨q, hq, hqd⟩ := Nat.exists_prime_and_dvd (show n ≠ 1 by omega)
    exact absurd (hfac q hq hqd) (List.not_mem_nil q)
  | cons pr rest2 ih =>
    intro n acc hsort hprime hn hfac
    have hprp : pr.Prime := hprime pr (List.mem_cons_self pr rest2)
    have hpr2 : 2 ≤ pr := hprp.two_le
    by_cases hfire : pr ^ 2 > n
    · refine ⟨[(n, 1)], ?_, ?_, ?_, ?_⟩
      · show (if pr ^ 2 > n then acc ++ [(n, 1)]
          else if (divOut pr n).1 = 1 then pdStep pr n acc
          else pdLoop rest2 (divOut pr n).1 (pdStep pr n acc)) = acc ++ [(n, 1)]
        rw [if_pos hfire]
      · intro pe hpe
        rcases List.mem_singleton.mp hpe with rfl
        refine ⟨?_, by omega, dvd_refl n⟩
        -- the remaining cofactor is prime: its least prime factor q is in
        -- the table suffix, hence q ≥ pr and q² ≥ pr² > n
        by_contra hnp
        have hq : n.minFac.Prime := Nat.minFac_prime (by omega)
        have hqd : n.minFac ∣ n := Nat.minFac_dvd n
        have hqle : pr ≤ n.minFac := by
          rcases List.mem_cons.mp (hfac n.minFac hq hqd) with h1 | h1
          · omega
          · exact le_of_lt ((List.pairwise_cons.mp hsort).1 _ h1)
        have hsq := Nat.minFac_sq_le_self (show 0 < n by omega) hnp
        have : pr ^ 2 ≤ n.minFac ^ 2 := Nat.pow_le_pow_left hqle 2
        omega
      · simp
      · rw [prodD_singleton, pow_one]
    · have hspec := divOut_spec pr n hpr2 (by omega)
      set n2 := (divOut pr n).1 with hn2def
      set e := (divOut pr n).2 with hedef
      have heq : pr ^ e * n2 = n := hspec.1
      have hndvd : ¬ pr ∣ n2 := hspec.2.1
      have hn2pos : 0 < n2 := hspec.2.2
      have hn2dvd : n2 ∣ n := ⟨pr ^ e, by rw [← heq]; ring⟩
      by_cases hone : n2 = 1
      · have hne : e ≠ 0 := by
          intro h
          rw [h, pow_zero, Nat.one_mul, hone] at heq
          omega
        refine ⟨[(pr, e)], ?_, ?_, ?_, ?_⟩
        · show (if pr ^ 2 > n then acc ++ [(n, 1)]
            else if n2 = 1 then pdStep pr n acc
            else pdLoop rest2 n2 (pdStep pr n acc)) = acc ++ [(pr, e)]
          rw [if_neg hfire, if_pos hone]
          unfold pdStep
          rw [if_neg (by rw [← hedef]; exact hne), ← hedef]
        · intro pe hpe
          rcases List.mem_singleton.mp hpe with rfl
          exact ⟨hprp, by omega, by rw [← heq, hone, Nat.mul_one]; exact dvd_pow_self pr hne⟩
        · simp
        · rw [prodD_singleton, ← heq, hone, Nat.mul_one]
      · have hfac2 : ∀ q, q.Prime → q ∣ n2 → q ∈ rest2 := by
          intro q hq hd
          rcases List.mem_cons.mp (hfac q hq (dvd_trans hd hn2dvd)) with rfl | h2
          · exact absurd hd hndvd
          · exact h2
        obtain ⟨E2, hE2eq, hE2mem, hE2pw, hE2prod⟩ :=
          ih n2 (pdStep pr n acc) (List.Pairwise.of_cons hsort)
            (fun p hp => hprime p (List.mem_cons_of_mem pr hp)) (by omega) hfac2
        have hstep : pdLoop (pr :: rest2) n acc = pdStep pr n acc ++ E2 := by
          show (if pr ^ 2 > n then acc ++ [(n, 1)]
            else if n2 = 1 then pdStep pr n acc
            else pdLoop rest2 n2 (pdStep pr n acc)) = _
          rw [if_neg hfire, if_neg hone, hE2eq]
        by_cases hez : e = 0
        · refine ⟨E2, ?_, ?_, hE2pw, ?_⟩
          · rw [hstep]
            unfold pdStep
            rw [if_pos (by rw [← hedef]; exact hez)]
          · intro pe hpe
            obtain ⟨h1, h2, h3⟩ := hE2mem pe hpe
            exact ⟨h1, h2, dvd_trans h3 hn2dvd⟩
          · rw [hE2prod, ← heq, hez, pow_zero, Nat.one_mul]
        · refine ⟨(pr, e) :: E2, ?_, ?_, ?_, ?_⟩
          · rw [hstep]
            unfold pdStep
            rw [if_neg (by rw [← hedef]; exact hez), ← hedef, List.append_assoc]
            rfl
          · intro pe hpe
            rcases List.mem_cons.mp hpe with rfl | hpe2
            · exact ⟨hprp, by omega, by rw [← heq]; exact Dvd.dvd.mul_right (dvd_pow_self pr hez) n2⟩
            · obtain ⟨h1, h2, h3⟩ := hE2mem pe hpe2
              exact ⟨h1, h2, dvd_trans h3 hn2dvd⟩
          · rw [List.map_cons]
            refine List.pairwise_cons.mpr ⟨?_, hE2pw⟩
            intro x hx
            obtain ⟨pe, hpe, rfl⟩ := List.mem_map.mp hx
            obtain ⟨h1, _, h3⟩ := hE2mem pe hpe
            exact (List.pairwise_cons.mp hsort).1 _ (hfac2 pe.1 h1 h3)
          · rw [prodD_cons, hE2prod, heq]

/-- A strictly ascending list of primes containing 2, 3 and 5 starts
with exactly those three entries. -/
theorem table_norm (table : List ℕ) (hsort : table.Pairwise (· < ·))
    (hprime : ∀ p ∈ table, p.Prime) (h2 : 2 ∈ table) (h3 : 3 ∈ table)
    (h5 : 5 ∈ table) : ∃ rest, table = 2 :: 3 :: 5 :: rest := by
  obtain ⟨a, l, rfl⟩ : ∃ a l, table = a :: l := by
    cases table with
    | nil => cases h2
    | cons a l => exact ⟨a, l, rfl⟩
  have ha : a = 2 := by
    rcases List.mem_cons.mp h2 with h | h
    · omega
    · have := (List.pairwise_cons.mp hsort).1 2 h
      have := (hprime a (List.mem_cons_self a l)).two_le
      omega
  subst ha
  have h3l : 3 ∈ l := by
    rcases List.mem_cons.mp h3 with h | h
    · omega
    · exact h
  obtain ⟨b, l2, rfl⟩ : ∃ b l2, l = b :: l2 := by
    cases l with
    | nil => cases h3l
    | cons b l2 => exact ⟨b, l2, rfl⟩
  have hb : b = 3 := by
    rcases List.mem_cons.mp h3l with h | h
    · omega
    · have hlt := (List.pairwise_cons.mp (List.Pairwise.of_cons hsort)).1 3 h
      have hgt := (List.pairwise_cons.mp hsort).1 b (List.mem_cons_self b l2)
      omega
  subst hb
  have h5l : 5 ∈ l2 := by
    rcases List.mem_cons.mp h5 with h | h
    · omega
    · rcases List.mem_cons.mp h with h | h
      · omega
      · exact h
  obtain ⟨c, l3, rfl⟩ : ∃ c l3, l2 = c :: l3 := by
    cases l2 with
    | nil => cases h5l
    | cons c l3 => exact ⟨c, l3, rfl⟩
  have hsort2 := List.Pairwise.of_cons (List.Pairwise.of_cons hsort)
  have hc : c = 5 := by
    rcases List.mem_cons.mp h5l with h | h
    · omega
    · have hlt := (List.pairwise_cons.mp hsort2).1 5 h
      have hgt := (List.pairwise_cons.mp (List.Pairwise.of_cons hsort)).1 c
        (List.mem_cons_self c l3)
      have hcp : c.Prime := hprime c (by simp)
      have hc4 : c ≠ 4 := by
        intro hc4
        rw [hc4] at hcp
        exact absurd hcp (by decide)
      have := hcp.two_le
      omega
  subst hc
  exact ⟨l3, rfl⟩

/-! ## Divisor-set generation -/

theorem prodD_cons2 (pe : ℕ × ℕ) (d : List (ℕ × ℕ)) :
    prodD (pe :: d) = pe.1 ^ pe.2 * prodD d := by
  unfold prodD
  rw [List.map_cons, List.prod_cons]

theorem extendDiv_mem (p : ℕ) :
    ∀ (e : ℕ) (S : Finset ℕ) (x : ℕ),
      x ∈ extendDiv p e S ↔ ∃ i, i ≤ e ∧ ∃ y ∈ S, x = y * p ^ i := by
  intro e
  induction e with
  | zero =>
    intro S x
    constructor
    · intro hx
      exact ⟨0, le_refl 0, x, hx, by rw [pow_zero, Nat.mul_one]⟩
    · rintro ⟨i, hi, y, hy, rfl⟩
      have hz : i = 0 := by omega
      rw [hz, pow_zero, Nat.mul_one]
      exact hy
  | succ e ih =>
    intro S x
    show x ∈ extendDiv p e (S ∪ S.image (· * p)) ↔ _
    rw [ih]
    constructor
    · rintro ⟨i, hi, y, hy, rfl⟩
      rcases Finset.mem_union.mp hy with hyS | hyP
      · exact ⟨i, by omega, y, hyS, rfl⟩
      · obtain ⟨z, hz, rfl⟩ := Finset.mem_image.mp hyP
        exact ⟨i + 1, by omega, z, hz, by rw [pow_succ]; ring⟩
    · rintro ⟨i, hi, y, hy, rfl⟩
      by_cases hie : i ≤ e
      · exact ⟨i, hie, y, Finset.mem_union_left _ hy, rfl⟩
      · have hieq : i = e + 1 := by omega
        refine ⟨e, le_refl e, y * p, Finset.mem_union_right _ (Finset.mem_image_of_mem _ hy), ?_⟩
        rw [hieq, pow_succ]
        ring

theorem extendDiv_divisors (p : ℕ) (hp : p.Prime) (e m : ℕ) (hm : m ≠ 0) :
    extendDiv p e m.divisors = (m * p ^ e).divisors := by
  ext x
  rw [extendDiv_mem, Nat.mem_divisors]
  constructor
  · rintro ⟨i, hi, y, hy, rfl⟩
    have hyd := (Nat.mem_divisors.mp hy).1
    exact ⟨Nat.mul_dvd_mul hyd (pow_dvd_pow p hi),
      Nat.mul_ne_zero hm (pow_ne_zero e hp.ne_zero)⟩
  · rintro ⟨hdvd, hne⟩
    obtain ⟨y, z, hy, hz, hyz⟩ := Nat.dvd_mul.mp hdvd
    obtain ⟨i, hi, rfl⟩ := (Nat.dvd_prime_pow hp).mp hz
    exact ⟨i, hi, y, Nat.mem_divisors.mpr ⟨hy, hm⟩, hyz.symm⟩

theorem foldl_extendDiv :
    ∀ (E : List (ℕ × ℕ)) (m : ℕ), m ≠ 0 → (∀ pe ∈ E, pe.1.Prime) →
      E.foldl (fun s pe => extendDiv pe.1 pe.2 s) m.divisors = (m * prodD E).divisors := by
  intro E
  induction E with
  | nil =>
    intro m hm _
    show m.divisors = (m * prodD []).divisors
    rw [prodD_nil, Nat.mul_one]
  | cons pe E ih =>
    intro m hm hprime
    rw [List.foldl_cons, extendDiv_divisors pe.1 (hprime pe (List.mem_cons_self pe E)) pe.2 m hm,
      ih (m * pe.1 ^ pe.2)
        (Nat.mul_ne_zero hm (pow_ne_zero _ (hprime pe (List.mem_cons_self pe E)).ne_zero))
        (fun q hq => hprime q (List.mem_cons_of_mem pe hq)),
      prodD_cons2, ← Nat.mul_assoc]

/-- Identify a `Finset.sort` with an explicitly given strictly
ascending enumeration. -/
theorem finset_sort_eq (s : Finset ℕ) (L : List ℕ) (hL : L.Sorted (· < ·))
    (hmem : ∀ x, x ∈ s ↔ x ∈ L) : s.sort (· ≤ ·) = L :=
  sorted_eq_of_mem_iff (Finset.sort_sorted_lt s) hL
    (fun x => by rw [Finset.mem_sort]; exact hmem x)

/-! ## Unfolding the certificate on a self-computed decomposition -/

/-- Supplying `primeDecomposition(N)` back to `decompCertificate` checks
`abs(N)` against the product over the recorded entries (when the
decomposition is empty the certificate recomputes it, which yields the
same list). -/
theorem cert_self (table : List ℕ) (t : ℤ) (ht : t ≠ 0) :
    decompCertificate table t (toZDecomp (primeDecomposition table t)) =
      decide (t.natAbs = prodD (pdLoop table t.natAbs [])) := by
  show decide ((t.natAbs : ℤ) = prodDecomp
      (if (toZDecomp (primeDecomposition table t)).isEmpty
        then toZDecomp (primeDecomposition table t)
        else toZDecomp (primeDecomposition table t))) = _
  rw [ite_self, prodDecomp_toZ]
  unfold primeDecomposition
  rw [if_neg ht, decide_eq_decide]
  exact Nat.cast_inj

theorem pdLoop_cons_fire (pr : ℕ) (rest : List ℕ) (n : ℕ) (acc : List (ℕ × ℕ))
    (hfire : pr ^ 2 > n) : pdLoop (pr :: rest) n acc = acc ++ [(n, 1)] := by
  show (if pr ^ 2 > n then acc ++ [(n, 1)]
    else if (divOut pr n).1 = 1 then pdStep pr n acc
    else pdLoop rest (divOut pr n).1 (pdStep pr n acc)) = _
  rw [if_pos hfire]

theorem pdLoop_cons_step (pr : ℕ) (rest : List ℕ) (n : ℕ) (acc : List (ℕ × ℕ))
    (hfire : ¬ pr ^ 2 > n) (hne : ¬ (divOut pr n).1 = 1) :
    pdLoop (pr :: rest) n acc = pdLoop rest (divOut pr n).1 (pdStep pr n acc) := by
  show (if pr ^ 2 > n then acc ++ [(n, 1)]
    else if (divOut pr n).1 = 1 then pdStep pr n acc
    else pdLoop rest (divOut pr n).1 (pdStep pr n acc)) = _
  rw [if_neg hfire, if_neg hne]

/-! ## The claims -/

/-- C2: for every integer target whose prime factors all appear in the
loaded prime table and whose square root is at most the square of the
table's maximum element `M`, certifying the self-computed decomposition
succeeds. -/
theorem claim_C2 (table : List ℕ) (M : ℕ) (t : ℤ)
    (hsort : table.Pairwise (· < ·))
    (hprime : ∀ p ∈ table, p.Prime)
    (hle : ∀ p ∈ table, p ≤ M)
    (hM : M ∈ table)
    (hfac : ∀ q : ℕ, q.Prime → (q : ℤ) ∣ t → q ∈ table)
    (_hsqrt : Nat.sqrt t.natAbs ≤ M ^ 2) :
    decompCertificate table t (toZDecomp (primeDecomposition table t)) = true := by
  have ht : t ≠ 0 := by
    intro h
    obtain ⟨q, hq1, hq2⟩ := Nat.exists_infinite_primes (M + 1)
    have hmem := hfac q hq2 (by rw [h]; exact dvd_zero _)
    have := hle q hmem
    omega
  have hn0 : 0 < t.natAbs := Int.natAbs_pos.mpr ht
  have hfacN : ∀ q : ℕ, q.Prime → q ∣ t.natAbs → q ∈ table := by
    intro q hq hd
    refine hfac q hq (dvd_trans (Int.natCast_dvd_natCast.mpr hd) ?_)
    exact Int.natAbs_dvd.mpr dvd_rfl
  have hres := pdLoop_fire M table t.natAbs [] hsort hprime hle (Or.inr hM) hn0
    (fun q hq hd => Or.inl (hfacN q hq hd))
    (fun h => absurd (h ▸ hM) (List.not_mem_nil M))
    (Or.inl (roughGt_eq_one M t.natAbs (fun q hq hd => hle q (hfacN q hq hd))))
  rw [cert_self table t ht, hres, prodD_nil, Nat.one_mul]
  simp

/-- C2 witness: the theorem applied at the table `[2, 3, 5, 7]` (with
maximum 7) and target 2. -/
theorem claim_C2_witness :
    decompCertificate [2, 3, 5, 7] 2 (toZDecomp (primeDecomposition [2, 3, 5, 7] 2)) = true := by
  refine claim_C2 [2, 3, 5, 7] 7 2 (by decide) (by decide) (by decide) (by decide) ?_
    (by rw [← isqrt_eq_sqrt]; decide)
  intro q hq hd
  have hq2 : q ∣ 2 := by exact_mod_cast hd
  rcases (Nat.dvd_prime Nat.prime_two).mp hq2 with h | h
  · rw [h] at hq
    exact absurd hq (by decide)
  · rw [h]
    decide

/-- C10: `decompCertificate(0)` — with the decomposition defaulted or
supplied empty, both of which the Python truthiness test treats alike —
returns false, because the empty decomposition of zero has product 1
while `abs(0) = 0`. -/
theorem claim_C10 (table : List ℕ) : decompCertificate table 0 [] = false := rfl

/-- C3, as stated in the claim, is false: with the table `[2, 3, 5, 7]`
(maximum element 7) and the prime target 11, the target's largest prime
factor (11, i.e. some prime factor) exceeds 7, yet the certificate
returns true — the `p² > n` shortcut correctly identifies the leftover
cofactor 11 as prime. -/
theorem claim_C3_counterexample :
    ¬ (decompCertificate [2, 3, 5, 7] 11 (toZDecomp (primeDecomposition [2, 3, 5, 7] 11)) = false ↔
        ((Nat.Prime 11 ∧ 7 ^ 2 < 11) ∨ (∃ q : ℕ, q.Prime ∧ q ∣ 11 ∧ 7 < q))) := by
  intro h
  have hlhs := h.mpr (Or.inr ⟨11, by decide, dvd_refl 11, by decide⟩)
  have htrue : decompCertificate [2, 3, 5, 7] 11
      (toZDecomp (primeDecomposition [2, 3, 5, 7] 11)) = true := by decide
  rw [htrue] at hlhs
  cases hlhs

/-- C3 (amended): for a nonzero target and a loaded table consisting of
exactly the primes up to its maximum element `M`, certifying the
self-computed decomposition fails if and only if the part of `|target|`
built from primes exceeding `M` is nontrivial and the part built from
primes at least `M` is at least `M²` (so that the `p² > n` shortcut can
never fire and trial division exhausts the table with a cofactor
remaining). -/
theorem claim_C3_amended (table : List ℕ) (M : ℕ) (t : ℤ)
    (hsort : table.Pairwise (· < ·))
    (hprime : ∀ p ∈ table, p.Prime)
    (hle : ∀ p ∈ table, p ≤ M)
    (hM : M ∈ table)
    (hcomp : ∀ q : ℕ, q.Prime → q ≤ M → q ∈ table)
    (ht : t ≠ 0) :
    (decompCertificate table t (toZDecomp (primeDecomposition table t)) = false ↔
      (1 < roughGt M t.natAbs ∧ M ^ 2 ≤ roughGe M t.natAbs)) := by
  have hn0 : 0 < t.natAbs := Int.natAbs_pos.mpr ht
  have hfacN : ∀ q : ℕ, q.Prime → q ∣ t.natAbs → q ∈ table ∨ M < q := by
    intro q hq hd
    by_cases hqM : q ≤ M
    · exact Or.inl (hcomp q hq hqM)
    · exact Or.inr (by omega)
  rw [cert_self table t ht, decide_eq_false_iff_not]
  constructor
  · intro hne
    by_contra hC
    rcases Decidable.not_and_iff_or_not.mp hC with h1 | h2
    · have hone : roughGt M t.natAbs = 1 := by
        have := roughGt_pos M t.natAbs
        omega
      have hres := pdLoop_fire M table t.natAbs [] hsort hprime hle (Or.inr hM) hn0
        hfacN (fun h => absurd (h ▸ hM) (List.not_mem_nil M)) (Or.inl hone)
      rw [prodD_nil, Nat.one_mul] at hres
      exact hne hres.symm
    · have hres := pdLoop_fire M table t.natAbs [] hsort hprime hle (Or.inr hM) hn0
        hfacN (fun h => absurd (h ▸ hM) (List.not_mem_nil M)) (Or.inr (by omega))
      rw [prodD_nil, Nat.one_mul] at hres
      exact hne hres.symm
  · intro hC heq
    have hres := pdLoop_exhaust M table t.natAbs [] hsort hprime hle (Or.inr hM) hn0
      hfacN hC.1 (fun _ => hC.2)
    rw [prodD_nil, Nat.one_mul] at hres
    rw [hres] at heq
    have hdvd := roughGt_dvd M t.natAbs (by omega)
    have hlt : t.natAbs / roughGt M t.natAbs < t.natAbs :=
      Nat.div_lt_self hn0 hC.1
    omega

/-- C3 amended witness: the amended theorem applied at the table
`[2, 3, 5, 7]`, `M = 7`, target 11 (whose rough part 11 is below
`7² = 49`, so the certificate is true and both sides are false). -/
theorem claim_C3_witness :
    decompCertificate [2, 3, 5, 7] 11 (toZDecomp (primeDecomposition [2, 3, 5, 7] 11)) = false ↔
      (1 < roughGt 7 (11 : ℤ).natAbs ∧ 7 ^ 2 ≤ roughGe 7 (11 : ℤ).natAbs) := by
  refine claim_C3_amended [2, 3, 5, 7] 7 11 (by decide) (by decide) (by decide) (by decide)
    ?_ (by decide)
  intro q hq hqM
  interval_cases q <;> revert hq <;> decide

/-- C4, as stated in the claim, is false: an explicitly supplied empty
decomposition is not used — Python's truthiness test sends it down the
recompute path — so for target 2 the certificate returns true even
though the product over the supplied empty mapping is 1 ≠ |2|. -/
theorem claim_C4_counterexample :
    decompCertificate [2, 3, 5, 7] 2 [] = true ∧ prodDecomp [] ≠ (((2 : ℤ)).natAbs : ℤ) :=
  ⟨by decide, by decide⟩

/-- C4 (amended): for every integer target and every explicitly
supplied nonempty decomposition `d`, the certificate uses `d` and
returns true exactly when the product of `p^m` over the entries of `d`
equals `|target|`; a supplied empty decomposition instead falls back to
a self-computed decomposition. -/
theorem claim_C4_amended (table : List ℕ) (t : ℤ) (d : List (ℤ × ℕ)) (hd : d ≠ []) :
    (decompCertificate table t d = true ↔ prodDecomp d = (t.natAbs : ℤ)) := by
  show decide ((t.natAbs : ℤ) = prodDecomp
      (if d.isEmpty then toZDecomp (primeDecomposition table t) else d)) = true ↔ _
  rw [if_neg (by simpa using hd), decide_eq_true_eq]
  exact eq_comm

/-- C4 amended witness: the docstring example `decompCertificate(10,
{2:1, 5:2})`, whose supplied product is 50 ≠ 10, is rejected. -/
theorem claim_C4_witness :
    decompCertificate [2, 3, 5, 7] 10 [((2 : ℤ), 1), ((5 : ℤ), 2)] = false := by
  have h := claim_C4_amended [2, 3, 5, 7] 10 [((2 : ℤ), 1), ((5 : ℤ), 2)] (by decide)
  have hne : ¬ (prodDecomp [((2 : ℤ), 1), ((5 : ℤ), 2)] = (((10 : ℤ)).natAbs : ℤ)) := by decide
  cases hc : decompCertificate [2, 3, 5, 7] 10 [((2 : ℤ), 1), ((5 : ℤ), 2)]
  · rfl
  · exact absurd (h.mp hc) hne

/-- Shared computation: on any sorted prime table containing 2, 3 and 5
the decomposition of 360 is exactly `{2: 3, 3: 2, 5: 1}`. -/
theorem primeDecomposition_360 (table : List ℕ) (hsort : table.Pairwise (· < ·))
    (hprime : ∀ p ∈ table, p.Prime) (h2 : 2 ∈ table) (h3 : 3 ∈ table)
    (h5 : 5 ∈ table) : primeDecomposition table 360 = [(2, 3), (3, 2), (5, 1)] := by
  obtain ⟨rest, rfl⟩ := table_norm table hsort hprime h2 h3 h5
  unfold primeDecomposition
  rw [if_neg (by decide)]
  show pdLoop (2 :: 3 :: 5 :: rest) 360 [] = _
  rw [pdLoop_cons_step 2 _ 360 [] (by norm_num) (by decide),
    show pdStep 2 360 [] = [(2, 3)] from rfl,
    show (divOut 2 360).1 = 45 from rfl,
    pdLoop_cons_step 3 _ 45 [(2, 3)] (by norm_num) (by decide),
    show pdStep 3 45 [(2, 3)] = [(2, 3), (3, 2)] from rfl,
    show (divOut 3 45).1 = 5 from rfl,
    pdLoop_cons_fire 5 rest 5 [(2, 3), (3, 2)] (by norm_num)]
  rfl

/-- C5: `primeDecomposition(0)` is the empty decomposition, and
`primeDecomposition(360)` is exactly `{2: 3, 3: 2, 5: 1}` whenever the
loaded table contains the primes up to at least 5. -/
theorem claim_C5 (table : List ℕ) (hsort : table.Pairwise (· < ·))
    (hprime : ∀ p ∈ table, p.Prime) (h2 : 2 ∈ table) (h3 : 3 ∈ table)
    (h5 : 5 ∈ table) :
    primeDecomposition table 0 = [] ∧
    primeDecomposition table 360 = [(2, 3), (3, 2), (5, 1)] :=
  ⟨rfl, primeDecomposition_360 table hsort hprime h2 h3 h5⟩

/-- C5 witness: the theorem applied at the concrete table
`[2, 3, 5, 7]`. -/
theorem claim_C5_witness :
    primeDecomposition [2, 3, 5, 7] 0 = [] ∧
    primeDecomposition [2, 3, 5, 7] 360 = [(2, 3), (3, 2), (5, 1)] :=
  claim_C5 [2, 3, 5, 7] (by decide) (by decide) (by decide) (by decide) (by decide)

/-- C9: `expOverOne` is exactly the restriction of `primeDecomposition`
to the entries of multiplicity greater than 1; in particular
`expOverOne(360) = {2: 3, 3: 2}` on any loaded table containing the
primes up to at least 5. -/
theorem claim_C9 (table : List ℕ) (hsort : table.Pairwise (· < ·))
    (hprime : ∀ p ∈ table, p.Prime) (h2 : 2 ∈ table) (h3 : 3 ∈ table)
    (h5 : 5 ∈ table) :
    (∀ u : ℤ, expOverOne table u =
      (primeDecomposition table u).filter (fun pe => decide (1 < pe.2))) ∧
    expOverOne table 360 = [(2, 3), (3, 2)] := by
  refine ⟨fun u => rfl, ?_⟩
  unfold expOverOne
  rw [primeDecomposition_360 table hsort hprime h2 h3 h5]
  rfl

/-- C9 witness: the theorem applied at the concrete table
`[2, 3, 5, 7]`. -/
theorem claim_C9_witness :
    expOverOne [2, 3, 5, 7] 360 = [(2, 3), (3, 2)] :=
  (claim_C9 [2, 3, 5, 7] (by decide) (by decide) (by decide) (by decide) (by decide)).2

/-- C1: for every `N > 5`, `genPrimes N` is a strictly ascending
(hence duplicate-free) sequence containing exactly the primes in
`[2, N)`: every element is prime and below `N`, and no prime below `N`
is missing. -/
theorem claim_C1 (N : ℕ) (hN : 5 < N) :
    (genPrimes N).Sorted (· < ·) ∧
    (∀ p ∈ genPrimes N, p.Prime ∧ p < N) ∧
    (∀ p : ℕ, p.Prime → p < N → p ∈ genPrimes N) := by
  have heq := genPrimes_eq_primesBelow hN
  refine ⟨?_, ?_, ?_⟩
  · rw [heq]
    exact (List.pairwise_lt_range N).filter _
  · intro p hp
    rw [heq] at hp
    have h1 := List.mem_filter.mp hp
    exact ⟨by simpa using h1.2, List.mem_range.mp h1.1⟩
  · intro p hp hlt
    rw [heq]
    exact List.mem_filter.mpr ⟨List.mem_range.mpr hlt, by simpa using hp⟩

/-- C1 witness: the theorem applied at `N = 50`, together with the
explicit enumeration from the spec. -/
theorem claim_C1_witness :
    (5 < 50 ∧
      (genPrimes 50).Sorted (· < ·) ∧
      (∀ p ∈ genPrimes 50, p.Prime ∧ p < 50) ∧
      (∀ p : ℕ, p.Prime → p < 50 → p ∈ genPrimes 50)) ∧
    genPrimes 50 = [2, 3, 5, 7, 11, 13, 17, 19, 23, 29, 31, 37, 41, 43, 47] :=
  ⟨⟨by norm_num, claim_C1 50 (by norm_num)⟩, by decide⟩

/-- C7, as stated in the claim, is false: for target 1 (whose prime
factors — there are none — trivially all lie in the table) the returned
decomposition is `{1: 1}`, whose key 1 is not prime; the `p² > n`
shortcut records the leftover cofactor even when it equals 1. -/
theorem claim_C7_counterexample :
    primeDecomposition [2, 3, 5, 7] 1 = [(1, 1)] ∧ ¬ Nat.Prime 1 :=
  ⟨by decide, by decide⟩

/-- C7 (amended): for every nonzero target with `|target| > 1` whose
prime factors all lie in the loaded table, every key of
`primeDecomposition(target)` is prime; for `target = ±1` the returned
decomposition is `{1: 1}` (with the non-prime key 1) whenever the table
is nonempty. -/
theorem claim_C7_amended (table : List ℕ) (t : ℤ)
    (hsort : table.Pairwise (· < ·))
    (hprime : ∀ p ∈ table, p.Prime)
    (htne : table ≠ [])
    (hfac : ∀ q : ℕ, q.Prime → (q : ℤ) ∣ t → q ∈ table)
    (ht : t ≠ 0) :
    (1 < t.natAbs → ∀ pe ∈ primeDecomposition table t, pe.1.Prime) ∧
    (t.natAbs = 1 → primeDecomposition table t = [(1, 1)]) := by
  constructor
  · intro h1 pe hpe
    have hfacN : ∀ q : ℕ, q.Prime → q ∣ t.natAbs → q ∈ table := by
      intro q hq hd
      refine hfac q hq (dvd_trans (Int.natCast_dvd_natCast.mpr hd) ?_)
      exact Int.natAbs_dvd.mpr dvd_rfl
    obtain ⟨E, hEeq, hEmem, _, _⟩ := pdLoop_decomp table t.natAbs [] hsort hprime h1 hfacN
    rw [show primeDecomposition table t = pdLoop table t.natAbs [] from by
        unfold primeDecomposition; rw [if_neg ht], hEeq, List.nil_append] at hpe
    exact (hEmem pe hpe).1
  · intro h1
    obtain ⟨pr, rest, rfl⟩ := List.exists_cons_of_ne_nil htne
    have hpr2 : 2 ≤ pr := (hprime pr (List.mem_cons_self pr rest)).two_le
    unfold primeDecomposition
    rw [if_neg ht, h1, pdLoop_cons_fire pr rest 1 [] (by nlinarith), List.nil_append]

/-- C7 amended witness: the theorem applied at the concrete table
`[2, 3, 5, 7]` and target 12 (all of whose prime factors lie in the
table). -/
theorem claim_C7_witness :
    (1 < (12 : ℤ).natAbs → ∀ pe ∈ primeDecomposition [2, 3, 5, 7] 12, pe.1.Prime) ∧
    ((12 : ℤ).natAbs = 1 → primeDecomposition [2, 3, 5, 7] 12 = [(1, 1)]) := by
  refine claim_C7_amended [2, 3, 5, 7] 12 (by decide) (by decide) (by decide) ?_ (by decide)
  intro q hq hd
  have hd12 : q ∣ 12 := by exact_mod_cast hd
  have hq37 : q < 13 := by
    have := Nat.le_of_dvd (by norm_num) hd12
    omega
  interval_cases q <;> revert hq hd12 <;> decide

/-- C8, as stated in the claim, is false: `genPrimes 3` raises nothing
and silently returns `[2, 3]`, which is not the list of primes below 3
and contains the element 3 ≥ 3. -/
theorem claim_C8_counterexample :
    genPrimes 3 ≠ (List.range 3).filter (fun m => decide m.Prime) ∧
    ∃ x ∈ genPrimes 3, 3 ≤ x := by decide

/-- C8 (amended): for `1 ≤ N ≤ 5` the function always returns `[2, 3]`
without raising; for `N ∈ {4, 5}` that happens to be exactly the primes
below `N`, while for `N ≤ 3` the returned table is incorrect — it
contains an element at least `N`. -/
theorem claim_C8_amended (N : ℕ) (h1 : 1 ≤ N) (h5 : N ≤ 5) :
    genPrimes N = [2, 3] ∧
    (4 ≤ N → genPrimes N = (List.range N).filter (fun m => decide m.Prime)) ∧
    (N ≤ 3 → ∃ x ∈ genPrimes N, N ≤ x) := by
  interval_cases N
  · exact ⟨by decide, fun h => absurd h (by omega), fun _ => by decide⟩
  · exact ⟨by decide, fun h => absurd h (by omega), fun _ => by decide⟩
  · exact ⟨by decide, fun h => absurd h (by omega), fun _ => by decide⟩
  · exact ⟨by decide, fun _ => by decide, fun h => absurd h (by omega)⟩
  · exact ⟨by decide, fun _ => by decide, fun h => absurd h (by omega)⟩

/-- C8 amended witness: the theorem applied at `N = 5`. -/
theorem claim_C8_witness :
    genPrimes 5 = [2, 3] ∧
    (4 ≤ 5 → genPrimes 5 = (List.range 5).filter (fun m => decide m.Prime)) ∧
    (5 ≤ 3 → ∃ x ∈ genPrimes 5, 5 ≤ x) :=
  claim_C8_amended 5 (by norm_num) (by norm_num)

/-- Transfer a bounded, decidable membership comparison between a
finite set and a list to an unbounded one. -/
theorem mem_iff_of_bounded (s : Finset ℕ) (L : List ℕ) (B : ℕ)
    (hb : ∀ x < B, (x ∈ s ↔ x ∈ L)) (hs : ∀ x ∈ s, x < B) (hL : ∀ x ∈ L, x < B) :
    ∀ x, x ∈ s ↔ x ∈ L := by
  intro x
  by_cases hx : x < B
  · exact hb x hx
  · constructor
    · intro h
      exact absurd (hs x h) hx
    · intro h
      exact absurd (hL x h) hx

/-- C6: for every nonzero target whose prime factors all lie in the
loaded table, `divisors(target, proper)` is the ascending enumeration
of the positive divisors of `|target|` (with 1 and `|target|` removed
when `proper` is set), and `divisors(0, proper)` is always empty. -/
theorem claim_C6 (table : List ℕ) (t : ℤ) (proper : Bool)
    (hsort : table.Pairwise (· < ·))
    (hprime : ∀ p ∈ table, p.Prime)
    (htne : table ≠ [])
    (hfac : ∀ q : ℕ, q.Prime → (q : ℤ) ∣ t → q ∈ table)
    (ht : t ≠ 0) :
    divisors table t proper =
      ((if proper then t.natAbs.divisors \ {1, t.natAbs} else t.natAbs.divisors).sort (· ≤ ·)) ∧
    divisors table 0 proper = [] := by
  constructor
  · have hn0 : 0 < t.natAbs := Int.natAbs_pos.mpr ht
    have hSset : (primeDecomposition table (t.natAbs : ℤ)).foldl
        (fun s pe => extendDiv pe.1 pe.2 s) {1} = t.natAbs.divisors := by
      rcases eq_or_ne t.natAbs 1 with h1 | h1
      · obtain ⟨pr, rest, rfl⟩ := List.exists_cons_of_ne_nil htne
        have hpr2 : 2 ≤ pr := (hprime pr (List.mem_cons_self pr rest)).two_le
        rw [h1]
        rw [show primeDecomposition (pr :: rest) ((1 : ℕ) : ℤ) = [(1, 1)] from by
          unfold primeDecomposition
          rw [if_neg (by decide)]
          show pdLoop (pr :: rest) 1 [] = _
          rw [pdLoop_cons_fire pr rest 1 [] (by nlinarith), List.nil_append]]
        rw [Nat.divisors_one]
        decide
      · have hfacN : ∀ q : ℕ, q.Prime → q ∣ t.natAbs → q ∈ table := by
          intro q hq hd
          refine hfac q hq (dvd_trans (Int.natCast_dvd_natCast.mpr hd) ?_)
          exact Int.natAbs_dvd.mpr dvd_rfl
        obtain ⟨E, hEeq, hEmem, _, hEprod⟩ :=
          pdLoop_decomp table t.natAbs [] hsort hprime (by omega) hfacN
        rw [show primeDecomposition table (t.natAbs : ℤ) = E from by
          unfold primeDecomposition
          rw [if_neg (by exact_mod_cast (show t.natAbs ≠ 0 by omega)), Int.natAbs_ofNat,
            hEeq, List.nil_append]]
        rw [show ({1} : Finset ℕ) = Nat.divisors 1 from Nat.divisors_one.symm,
          foldl_extendDiv E 1 one_ne_zero (fun pe hpe => (hEmem pe hpe).1),
          Nat.one_mul, hEprod]
    show (if t = 0 then ([] : List ℕ)
      else ((if proper
        then ((primeDecomposition table (t.natAbs : ℤ)).foldl
          (fun s pe => extendDiv pe.1 pe.2 s) {1}) \ {1, t.natAbs}
        else ((primeDecomposition table (t.natAbs : ℤ)).foldl
          (fun s pe => extendDiv pe.1 pe.2 s) {1})).sort (· ≤ ·))) = _
    rw [if_neg ht, hSset]
  · show (if (0 : ℤ) = 0 then ([] : List ℕ) else _) = []
    rw [if_pos rfl]

/-- C6 witness: the theorem applied at the table `[2, 3, 5, 7]` for the
spec's three examples. -/
theorem claim_C6_witness :
    divisors [2, 3, 5, 7] 36 false = [1, 2, 3, 4, 6, 9, 12, 18, 36] ∧
    divisors [2, 3, 5, 7] 36 true = [2, 3, 4, 6, 9, 12, 18] ∧
    divisors [2, 3, 5, 7] 7 true = [] := by
  have hfac36 : ∀ q : ℕ, q.Prime → (q : ℤ) ∣ 36 → q ∈ ([2, 3, 5, 7] : List ℕ) := by
    intro q hq hd
    have hd36 : q ∣ 36 := by exact_mod_cast hd
    have hqlt : q < 37 := by
      have := Nat.le_of_dvd (by norm_num) hd36
      omega
    interval_cases q <;> revert hq hd36 <;> decide
  have hfac7 : ∀ q : ℕ, q.Prime → (q : ℤ) ∣ 7 → q ∈ ([2, 3, 5, 7] : List ℕ) := by
    intro q hq hd
    have hd7 : q ∣ 7 := by exact_mod_cast hd
    have hqlt : q < 8 := by
      have := Nat.le_of_dvd (by norm_num) hd7
      omega
    interval_cases q <;> revert hq hd7 <;> decide
  refine ⟨?_, ?_, ?_⟩
  · rw [(claim_C6 [2, 3, 5, 7] 36 false (by decide) (by decide) (by decide) hfac36
      (by decide)).1]
    show (Nat.divisors 36).sort (· ≤ ·) = _
    exact finset_sort_eq _ _ (by decide)
      (mem_iff_of_bounded _ _ 37 (by decide) (by decide) (by decide))
  · rw [(claim_C6 [2, 3, 5, 7] 36 true (by decide) (by decide) (by decide) hfac36
      (by decide)).1]
    show ((Nat.divisors 36) \ {1, 36}).sort (· ≤ ·) = _
    exact finset_sort_eq _ _ (by decide)
      (mem_iff_of_bounded _ _ 37 (by decide) (by decide) (by decide))
  · rw [(claim_C6 [2, 3, 5, 7] 7 true (by decide) (by decide) (by decide) hfac7
      (by decide)).1]
    show ((Nat.divisors 7) \ {1, 7}).sort (· ≤ ·) = _
    exact finset_sort_eq _ _ (by decide)
      (mem_iff_of_bounded _ _ 8 (by decide) (by decide) (by decide))

/-- C10 witness: the theorem applied at the concrete table
`[2, 3, 5, 7]`. -/
theorem claim_C10_witness : decompCertificate [2, 3, 5, 7] 0 [] = false :=
  claim_C10 [2, 3, 5, 7]

end SmallPrimes
